import Mathlib

/-!
Verification of the bookPage2Blog backend's paragraph-segmentation engine and
upload pipeline, as a shallow embedding in Lean.

Text is modelled as `List Char` (one element per Unicode code point, matching
Python's `str` length and indexing semantics).

Embedded source functions:
* `parse_into_paragraphs` — `OCRService.parse_into_paragraphs`
  (`api/ocr_service.py`): `re.split(r'\n\s*\n+', text)`, then per block
  `' '.join(para.split())`, keeping blocks with `len(para) > 20`.
* `upload` — `BlogPostViewSet.upload` (`api/views.py`): serializer validation
  (DRF `CharField` trims leading/trailing whitespace by default), title
  derivation from the first paragraph, and persistence of the post and its
  paragraphs with `enumerate(paragraphs, start=1)`.
-/

/-- Python's `str` whitespace set: the code points for which `str.isspace()`
holds and which `\s` matches in a (default, Unicode) `re` pattern.  Used both
by `re.split(r'\n\s*\n+', ...)` and by `str.split()`. -/
def pyIsSpace (c : Char) : Bool :=
  [9, 10, 11, 12, 13, 28, 29, 30, 31, 32, 133, 160, 0x1680,
   0x2000, 0x2001, 0x2002, 0x2003, 0x2004, 0x2005, 0x2006, 0x2007,
   0x2008, 0x2009, 0x200A, 0x2028, 0x2029, 0x202F, 0x205F, 0x3000].contains c.toNat

/-- Python `str.strip()` with no argument: remove leading and trailing
whitespace.  DRF's `CharField` applies this to incoming values
(`trim_whitespace=True` is the default). -/
def pyStrip (l : List Char) : List Char :=
  ((l.dropWhile pyIsSpace).reverse.dropWhile pyIsSpace).reverse

/-- One step (from the right) of Python's `str.split()`: maintain the word
currently being built and the list of completed words to the right. -/
def tokStep (c : Char) (acc : List Char × List (List Char)) :
    List Char × List (List Char) :=
  if pyIsSpace c then
    if acc.1.isEmpty then ([], acc.2) else ([], acc.1 :: acc.2)
  else (c :: acc.1, acc.2)

/-- Python `str.split()` with no argument: split on runs of whitespace,
discarding empty strings. -/
def pyTokens (l : List Char) : List (List Char) :=
  let p := l.foldr tokStep ([], [])
  if p.1.isEmpty then p.2 else p.1 :: p.2

/-- Python `' '.join(ts)`: concatenate the given strings with a single space
between consecutive ones. -/
def joinSp : List (List Char) → List Char
  | [] => []
  | [t] => t
  | t :: t' :: ts => t ++ ' ' :: joinSp (t' :: ts)

/-- The normalization step of `parse_into_paragraphs`:
`para = ' '.join(para.split())`. -/
def normalizeWS (l : List Char) : List Char :=
  joinSp (pyTokens l)

/-- Matching of the tail `\s*\n+` of the separator regex at the current
position, with Python's greedy-with-backtracking semantics: succeeds iff the
maximal whitespace prefix of the input contains a newline, and then consumes
through the **last** newline of that whitespace prefix (greedy `\s*`
backtracks to the last position where `\n+` can start, and `\n+` then extends
as far as newlines continue).  Returns the remaining input. -/
def afterLastNL : List Char → Option (List Char)
  | [] => none
  | c :: cs =>
    if c = '\n' then
      match afterLastNL cs with
      | some r => some r
      | none => some cs
    else if pyIsSpace c then afterLastNL cs
    else none

/-- Match of the separator regex `\n\s*\n+` anchored at the current position:
a newline whose surrounding whitespace run contains at least one further
newline.  Returns the input remaining after the match. -/
def matchSep (l : List Char) : Option (List Char) :=
  match l with
  | [] => none
  | c :: cs => if c = '\n' then afterLastNL cs else none

/-- `re.split(r'\n\s*\n+', text)`, scanning left to right for the leftmost
match of the separator; `acc` holds the (reversed) characters of the block
currently being read.  The `fuel` argument makes the recursion structural;
every step consumes at least one character, so `fuel = text.length` always
suffices and the fuel-exhausted branch is unreachable (see
`splitBlocksAux_fuel`). -/
def splitBlocksAux : Nat → List Char → List Char → List (List Char)
  | _, acc, [] => [acc.reverse]
  | 0, acc, l => [acc.reverse ++ l]
  | fuel + 1, acc, c :: cs =>
    match matchSep (c :: cs) with
    | some rest => acc.reverse :: splitBlocksAux fuel [] rest
    | none => splitBlocksAux fuel (c :: acc) cs

/-- `re.split(r'\n\s*\n+', text)`: the block list of `parse_into_paragraphs`. -/
def splitBlocks (text : List Char) : List (List Char) :=
  splitBlocksAux text.length [] text

/-- `OCRService.parse_into_paragraphs` (`api/ocr_service.py`): split on the
regex `\n\s*\n+`, normalize each block with `' '.join(para.split())`, and keep
the blocks with `len(para) > 20`, in order. -/
def parse_into_paragraphs (text : List Char) : List (List Char) :=
  ((splitBlocks text).map normalizeWS).filter (fun para => 20 < para.length)

/-! ### Spec-level segmenter (for the refinement claim)

The following definitions are written from the specification's words, for
comparison with the source-derived segmenter above (spec §4.1): "Split the
input into blocks wherever a blank-line boundary occurs … any run of
whitespace containing at least two newline characters acts as a separator.
A single newline inside a block does not split it." -/

/-- Spec-level splitter: scan the input; each **maximal run of whitespace
containing at least two newline characters** is a separator and is removed
whole; any other character (including a whitespace run with at most one
newline) stays in the current block.  `fuel` makes the recursion structural;
`fuel = text.length` always suffices. -/
def specSplitAux : Nat → List Char → List Char → List (List Char)
  | _, acc, [] => [acc.reverse]
  | 0, acc, l => [acc.reverse ++ l]
  | fuel + 1, acc, c :: cs =>
    if pyIsSpace c then
      let run := c :: cs.takeWhile pyIsSpace
      let rest := cs.dropWhile pyIsSpace
      if 2 ≤ run.count '\n' then acc.reverse :: specSplitAux fuel [] rest
      else specSplitAux fuel (run.reverse ++ acc) rest
    else specSplitAux fuel (c :: acc) cs

/-- Spec-level block list: split at every maximal whitespace run holding at
least two newlines. -/
def specBlocks (text : List Char) : List (List Char) :=
  specSplitAux text.length [] text

/-- Spec-level segmenter (spec §4.1 steps 1–3): split at blank-line
boundaries, normalize each block's whitespace, discard normalized blocks of
length ≤ 20. -/
def spec_segment (text : List Char) : List (List Char) :=
  ((specBlocks text).map normalizeWS).filter (fun para => 20 < para.length)

/-! ### Upload pipeline (`BlogPostViewSet.upload`, `api/views.py`) -/

/-- The fallback title literal used by `BlogPostViewSet.upload`. -/
def untitledPost : List Char := "Untitled Post".data

/-- The default author literal used by `BlogPostViewSet.upload`. -/
def anonymousAuthor : List Char := "Anonymous".data

/-- A persisted `BlogPost` row (the fields the upload pipeline writes which
are relevant here). -/
structure PostRec where
  title : List Char
  author : List Char
deriving DecidableEq

/-- A persisted `Paragraph` row: foreign key to its post (modelled as the
post's index in the store), the 1-based `paragraph_id` position, and the
text. -/
structure ParaRec where
  postId : Nat
  paragraph_id : Nat
  text : List Char
deriving DecidableEq

/-- The persistent store touched by the upload endpoint. -/
structure DBState where
  posts : List PostRec
  paras : List ParaRec
deriving DecidableEq

/-- Outcome of one call to the upload endpoint: HTTP 400 (serializer
validation failure), HTTP 201 with the created post's title, author and
`(id, text)` paragraph list, or HTTP 500 with the error message. -/
inductive UploadResponse where
  | validationError
  | created (title author : List Char) (paras : List (Nat × List Char))
  | error (msg : List Char)
deriving DecidableEq

/-- The title produced by `upload`'s derivation block: if the (validated)
title is falsy (empty) or equals `'Untitled Post'`, replace it by the first
paragraph's first 50 characters plus `'...'` when that paragraph is longer
than 50 characters, or by `'Untitled Post'` when there are no paragraphs;
otherwise keep the caller's title. -/
def derive_title (title : List Char) (paragraphs : List (List Char)) :
    List Char :=
  if title = [] ∨ title = untitledPost then
    match paragraphs with
    | [] => untitledPost
    | p :: _ => p.take 50 ++ (if 50 < p.length then "...".data else [])
  else title

/-- Python `enumerate(xs, start)`. -/
def pyEnumerate (start : Nat) : List α → List (Nat × α)
  | [] => []
  | a :: as => (start, a) :: pyEnumerate (start + 1) as

/-- `BlogPostViewSet.upload` (`api/views.py`), modelled after image
validation: inputs are the caller's optional `title` and `author` fields and
the result of `ocr_service.extract_and_parse`'s text extraction (`Except`
models the raised-exception path).  The serializer's `CharField`s trim
leading/trailing whitespace (DRF default) and reject values longer than 255
characters; extraction failure is caught and returned as an HTTP 500 without
touching the store; otherwise the post and its paragraphs (positions from
`enumerate(paragraphs, start=1)`) are created. -/
def upload (rawTitle rawAuthor : Option (List Char))
    (extraction : Except (List Char) (List Char)) (db : DBState) :
    DBState × UploadResponse :=
  let vtitle := rawTitle.map pyStrip
  let vauthor := rawAuthor.map pyStrip
  if 255 < (vtitle.getD []).length ∨ 255 < (vauthor.getD []).length then
    (db, .validationError)
  else
    let title := vtitle.getD untitledPost
    let author := vauthor.getD anonymousAuthor
    match extraction with
    | .error e => (db, .error ("OCR processing failed: ".data ++ e))
    | .ok rawText =>
      let paragraphs := parse_into_paragraphs rawText
      let title := derive_title title paragraphs
      let postId := db.posts.length
      let entries := pyEnumerate 1 paragraphs
      let newParas := entries.map fun ip =>
        { postId := postId, paragraph_id := ip.1, text := ip.2 : ParaRec }
      ({ posts := db.posts ++ [{ title := title, author := author }],
         paras := db.paras ++ newParas },
       .created title author entries)

/-- The created post's title, when the response is a 201. -/
def UploadResponse.titleOf : UploadResponse → Option (List Char)
  | .created t _ _ => some t
  | _ => none

/-! ### Lemmas about tokenization and whitespace normalization -/

/-- Prepend characters to the first block of a block list. -/
def prepFirst (p : List Char) : List (List Char) → List (List Char)
  | [] => [p]
  | b :: bs => (p ++ b) :: bs

/-- "The head of `l`, if any, is not whitespace": the shape of the residual
text after a whitespace run has been consumed. -/
def HeadNotWS (l : List Char) : Prop :=
  ∀ c, l.head? = some c → pyIsSpace c = false

/-- Pointwise relation between a code-splitter block and the corresponding
spec-splitter block: they differ only by whitespace padding at the two ends. -/
def PadBoth (b s : List Char) : Prop :=
  ∃ w₁ w₂, (∀ c ∈ w₁, pyIsSpace c = true) ∧ (∀ c ∈ w₂, pyIsSpace c = true) ∧
    b = w₁ ++ s ++ w₂

/-- Relation between the full block lists of the code splitter and the spec
splitter: both nonempty, the first blocks differ only by trailing whitespace,
and later blocks differ only by whitespace padding at the ends. -/
def BlocksRel (B S : List (List Char)) : Prop :=
  ∃ b bs s ss, B = b :: bs ∧ S = s :: ss ∧
    (∃ w, (∀ c ∈ w, pyIsSpace c = true) ∧ b = s ++ w) ∧
    List.Forall₂ PadBoth bs ss

theorem prepFirst_append (a b : List Char) (L : List (List Char)) :
    prepFirst (a ++ b) L = prepFirst a (prepFirst b L) := by
  cases L <;> simp [prepFirst]

/-- Invariant of the `str.split()` fold: the word being built and all
completed words consist of non-whitespace characters, and completed words are
nonempty. -/
theorem tokState_inv (l : List Char) :
    (∀ c ∈ (l.foldr tokStep ([], [])).1, pyIsSpace c = false) ∧
    (∀ t ∈ (l.foldr tokStep ([], [])).2, t ≠ [] ∧
      ∀ c ∈ t, pyIsSpace c = false) := by
  induction l with
  | nil => simp
  | cons c cs ih =>
    obtain ⟨h1, h2⟩ := ih
    simp only [List.foldr_cons]
    rcases hst : cs.foldr tokStep ([], []) with ⟨cur, ws⟩
    rw [hst] at h1 h2
    by_cases hc : pyIsSpace c
    · by_cases he : cur.isEmpty
      · simp only [tokStep, hc, he, if_true]
        exact ⟨by simp, h2⟩
      · simp only [tokStep, hc, he, if_true, if_false]
        refine ⟨by simp, ?_⟩
        intro t ht
        rcases List.mem_cons.mp ht with rfl | ht
        · exact ⟨by simpa using he, h1⟩
        · exact h2 t ht
    · simp only [tokStep, hc, if_false]
      refine ⟨?_, h2⟩
      intro d hd
      rcases List.mem_cons.mp hd with rfl | hd
      · simpa using hc
      · exact h1 d hd

/-- Every token produced by `str.split()` is nonempty and whitespace-free. -/
theorem pyTokens_mem {l t : List Char} (ht : t ∈ pyTokens l) :
    t ≠ [] ∧ ∀ c ∈ t, pyIsSpace c = false := by
  obtain ⟨h1, h2⟩ := tokState_inv l
  unfold pyTokens at ht
  rcases hst : l.foldr tokStep ([], []) with ⟨cur, ws⟩
  rw [hst] at ht h1 h2
  by_cases he : cur.isEmpty
  · simp only [he, if_true] at ht
    exact h2 t ht
  · simp only [he, if_false] at ht
    rcases List.mem_cons.mp ht with rfl | ht
    · exact ⟨by simpa using he, h1⟩
    · exact h2 t ht

/-- A leading whitespace character does not change `str.split()`. -/
theorem pyTokens_cons_space {c : Char} (hc : pyIsSpace c = true)
    (l : List Char) : pyTokens (c :: l) = pyTokens l := by
  unfold pyTokens
  simp only [List.foldr_cons]
  rcases hst : l.foldr tokStep ([], []) with ⟨cur, ws⟩
  by_cases he : cur.isEmpty
  · simp [tokStep, hc, he]
  · simp [tokStep, hc, he]

/-- Leading whitespace does not change `str.split()`. -/
theorem pyTokens_append_space_left {w : List Char}
    (hw : ∀ c ∈ w, pyIsSpace c = true) (l : List Char) :
    pyTokens (w ++ l) = pyTokens l := by
  induction w with
  | nil => rfl
  | cons c cs ih =>
    rw [List.cons_append, pyTokens_cons_space (hw c (by simp))]
    exact ih fun d hd => hw d (by simp [hd])

/-- Folding `tokStep` over whitespace starting from the empty state stays in
the empty state. -/
theorem foldr_tokStep_space {w : List Char}
    (hw : ∀ c ∈ w, pyIsSpace c = true) :
    w.foldr tokStep ([], []) = ([], []) := by
  induction w with
  | nil => rfl
  | cons c cs ih =>
    simp only [List.foldr_cons, ih fun d hd => hw d (by simp [hd])]
    simp [tokStep, hw c (by simp)]

/-- Trailing whitespace does not change `str.split()`. -/
theorem pyTokens_append_space_right {w : List Char}
    (hw : ∀ c ∈ w, pyIsSpace c = true) (l : List Char) :
    pyTokens (l ++ w) = pyTokens l := by
  unfold pyTokens
  rw [List.foldr_append, foldr_tokStep_space hw]

/-- Whitespace padding on either side does not change normalization. -/
theorem normalizeWS_pad {w₁ w₂ : List Char}
    (h₁ : ∀ c ∈ w₁, pyIsSpace c = true) (h₂ : ∀ c ∈ w₂, pyIsSpace c = true)
    (l : List Char) : normalizeWS (w₁ ++ l ++ w₂) = normalizeWS l := by
  unfold normalizeWS
  rw [List.append_assoc, pyTokens_append_space_left h₁,
    pyTokens_append_space_right h₂]

/-- Folding `tokStep` over a whitespace-free word extends the current word. -/
theorem foldr_tokStep_word {w : List Char}
    (hw : ∀ c ∈ w, pyIsSpace c = false) (st : List Char × List (List Char)) :
    w.foldr tokStep st = (w ++ st.1, st.2) := by
  induction w with
  | nil => rfl
  | cons c cs ih =>
    simp only [List.foldr_cons, ih fun d hd => hw d (by simp [hd])]
    simp [tokStep, hw c (by simp)]

/-- Tokenizing a nonempty space-joined token list recovers the tokens:
the fold over `joinSp (t :: ts)` ends in state `(t, ts)`. -/
theorem foldr_tokStep_joinSp {t : List Char} {ts : List (List Char)}
    (h : ∀ u ∈ t :: ts, u ≠ [] ∧ ∀ c ∈ u, pyIsSpace c = false) :
    (joinSp (t :: ts)).foldr tokStep ([], []) = (t, ts) := by
  induction ts generalizing t with
  | nil =>
    simp only [joinSp]
    rw [foldr_tokStep_word (h t (by simp)).2]
    simp
  | cons t' ts' ih =>
    simp only [joinSp]
    rw [List.foldr_append, List.foldr_cons,
      ih fun u hu => h u (List.mem_cons_of_mem _ hu)]
    have ht' : t'.isEmpty = false := by
      simpa using (h t' (by simp)).1
    simp only [tokStep, if_pos (by decide : pyIsSpace ' ' = true), ht',
      Bool.false_eq_true, if_false]
    rw [foldr_tokStep_word (h t (by simp)).2]
    simp

/-- `str.split()` is a left inverse of `' '.join` on lists of nonempty,
whitespace-free tokens. -/
theorem pyTokens_joinSp {ts : List (List Char)}
    (h : ∀ u ∈ ts, u ≠ [] ∧ ∀ c ∈ u, pyIsSpace c = false) :
    pyTokens (joinSp ts) = ts := by
  cases ts with
  | nil => rfl
  | cons t ts =>
    unfold pyTokens
    rw [foldr_tokStep_joinSp h]
    have : t.isEmpty = false := by simpa using (h t (by simp)).1
    simp [this]

/-- Whitespace normalization is idempotent. -/
theorem normalizeWS_idem (l : List Char) :
    normalizeWS (normalizeWS l) = normalizeWS l := by
  unfold normalizeWS
  rw [pyTokens_joinSp fun u hu => pyTokens_mem hu]

/-- A list without whitespace characters trivially has no two adjacent
whitespace characters. -/
theorem chain'_of_no_space {l : List Char}
    (h : ∀ c ∈ l, pyIsSpace c = false) :
    l.Chain' (fun a b => ¬(pyIsSpace a = true ∧ pyIsSpace b = true)) := by
  induction l with
  | nil => simp
  | cons c cs ih =>
    rw [List.chain'_cons']
    refine ⟨?_, ih fun d hd => h d (by simp [hd])⟩
    intro y _
    simp [h c (by simp)]

/-- `joinSp` of nonempty whitespace-free tokens is itself nonempty. -/
theorem joinSp_ne_nil {t : List Char} {ts : List (List Char)} (ht : t ≠ []) :
    joinSp (t :: ts) ≠ [] := by
  cases ts with
  | nil => simpa [joinSp] using ht
  | cons t' ts' =>
    simp only [joinSp]
    intro h
    rcases List.append_eq_nil.mp h with ⟨h1, _⟩
    exact ht h1

/-- Shape of a space-joined list of nonempty, whitespace-free tokens: no
whitespace at either end, no two adjacent whitespace characters, and every
whitespace character is a single space. -/
theorem joinSp_shape {ts : List (List Char)}
    (h : ∀ u ∈ ts, u ≠ [] ∧ ∀ c ∈ u, pyIsSpace c = false) :
    (∀ c, (joinSp ts).head? = some c → pyIsSpace c = false) ∧
    (∀ c, (joinSp ts).getLast? = some c → pyIsSpace c = false) ∧
    (joinSp ts).Chain' (fun a b => ¬(pyIsSpace a = true ∧ pyIsSpace b = true)) ∧
    (∀ c ∈ joinSp ts, pyIsSpace c = true → c = ' ') := by
  induction ts with
  | nil => simp [joinSp]
  | cons t ts ih =>
    obtain ⟨htne, htc⟩ := h t (by simp)
    cases ts with
    | nil =>
      simp only [joinSp]
      refine ⟨?_, ?_, chain'_of_no_space htc, ?_⟩
      · intro c hc
        exact htc c (by
          cases t with
          | nil => simp at hc
          | cons a t' => simp at hc; simp [hc])
      · intro c hc
        exact htc c (List.mem_of_mem_getLast? hc)
      · intro c hc hws
        exact absurd (htc c hc) (by simp [hws])
    | cons t' ts' =>
      have ih' := ih fun u hu => h u (List.mem_cons_of_mem _ hu)
      obtain ⟨ihh, ihl, ihc, ihs⟩ := ih'
      have hJne : joinSp (t' :: ts') ≠ [] :=
        joinSp_ne_nil (h t' (by simp)).1
      simp only [joinSp]
      refine ⟨?_, ?_, ?_, ?_⟩
      · intro c hc
        cases t with
        | nil => exact absurd rfl htne
        | cons a t'' =>
          simp only [List.cons_append, List.head?_cons,
            Option.some.injEq] at hc
          exact htc c (by simp [← hc])
      · intro c hc
        rw [List.getLast?_append_of_ne_nil _ (by simp)] at hc
        cases hJ : joinSp (t' :: ts') with
        | nil => exact absurd hJ hJne
        | cons j js =>
          rw [hJ, List.getLast?_cons_cons] at hc
          exact ihl c (by rw [hJ]; exact hc)
      · rw [List.chain'_append]
        refine ⟨chain'_of_no_space htc, ?_, ?_⟩
        · rw [List.chain'_cons']
          refine ⟨?_, ihc⟩
          intro y hy hxy
          exact absurd (ihh y hy) (by simp [hxy.2])
        · intro x hx y hy hxy
          exact absurd (htc x (List.mem_of_mem_getLast? hx))
            (by simp [hxy.1])
      · intro c hc hws
        rcases List.mem_append.mp hc with hc | hc
        · exact absurd (htc c hc) (by simp [hws])
        · rcases List.mem_cons.mp hc with rfl | hc
          · rfl
          · exact ihs c hc hws

/-! ### Lemmas about the regex splitter -/

theorem headNotWS_nil : HeadNotWS [] := by intro c hc; simp at hc

theorem headNotWS_dropWhile (l : List Char) :
    HeadNotWS (l.dropWhile pyIsSpace) := by
  induction l with
  | nil => exact headNotWS_nil
  | cons a as ih =>
    by_cases ha : pyIsSpace a
    · simpa [List.dropWhile_cons, ha] using ih
    · intro c hc
      rw [List.dropWhile_cons, if_neg ha] at hc
      simp only [List.head?_cons, Option.some.injEq] at hc
      subst hc
      simpa using ha

theorem afterLastNL_length :
    ∀ {l r : List Char}, afterLastNL l = some r → r.length < l.length := by
  intro l
  induction l with
  | nil => intro r h; simp [afterLastNL] at h
  | cons c cs ih =>
    intro r h
    by_cases hc : c = '\n'
    · subst hc
      simp only [afterLastNL, if_pos rfl] at h
      cases ha : afterLastNL cs with
      | some r' =>
        rw [ha] at h
        cases h
        exact Nat.lt_trans (ih ha) (by simp)
      | none =>
        rw [ha] at h
        cases h
        simp
    · by_cases hws : pyIsSpace c
      · simp only [afterLastNL, if_neg hc, hws, if_true] at h
        exact Nat.lt_trans (ih h) (by simp)
      · simp [afterLastNL, hc, hws] at h

theorem matchSep_length {l r : List Char} (h : matchSep l = some r) :
    r.length < l.length := by
  cases l with
  | nil => simp [matchSep] at h
  | cons c cs =>
    by_cases hc : c = '\n'
    · simp only [matchSep, if_pos hc] at h
      exact Nat.lt_trans (afterLastNL_length h) (by simp)
    · simp [matchSep, hc] at h

/-- The fuel argument is irrelevant as long as it covers the input length. -/
theorem splitBlocksAux_fuel :
    ∀ (n fuel fuel' : Nat) (acc l), l.length ≤ n → l.length ≤ fuel →
      l.length ≤ fuel' → splitBlocksAux fuel acc l = splitBlocksAux fuel' acc l := by
  intro n
  induction n with
  | zero =>
    intro fuel fuel' acc l hn _ _
    rw [List.length_eq_zero.mp (Nat.le_zero.mp hn)]
    cases fuel <;> cases fuel' <;> rfl
  | succ n ih =>
    intro fuel fuel' acc l hn hf hf'
    cases l with
    | nil => cases fuel <;> cases fuel' <;> rfl
    | cons c cs =>
      simp only [List.length_cons] at hn hf hf'
      cases fuel with
      | zero => omega
      | succ f =>
        cases fuel' with
        | zero => omega
        | succ f' =>
          cases hm : matchSep (c :: cs) with
          | some rest =>
            have hr : rest.length < cs.length + 1 := matchSep_length hm
            simp only [splitBlocksAux, hm]
            rw [ih f f' [] rest (by omega) (by omega) (by omega)]
          | none =>
            simp only [splitBlocksAux, hm]
            exact ih f f' (c :: acc) cs (by omega) (by omega) (by omega)

/-- The accumulator only prepends (reversed) onto the first produced block. -/
theorem splitBlocksAux_acc :
    ∀ (fuel : Nat) (l acc), l.length ≤ fuel →
      splitBlocksAux fuel acc l =
        prepFirst acc.reverse (splitBlocksAux fuel [] l) := by
  intro fuel
  induction fuel with
  | zero =>
    intro l acc hl
    rw [List.length_eq_zero.mp (Nat.le_zero.mp hl)]
    simp [splitBlocksAux, prepFirst]
  | succ f ih =>
    intro l acc hl
    cases l with
    | nil => simp [splitBlocksAux, prepFirst]
    | cons c cs =>
      simp only [List.length_cons] at hl
      simp only [splitBlocksAux]
      cases hm : matchSep (c :: cs) with
      | some rest => simp [prepFirst]
      | none =>
        rw [ih cs (c :: acc) (by omega), ih cs [c] (by omega),
          List.reverse_cons, prepFirst_append]
        rfl

/-- Fuel irrelevance for the spec-level splitter. -/
theorem specSplitAux_fuel :
    ∀ (n fuel fuel' : Nat) (acc l), l.length ≤ n → l.length ≤ fuel →
      l.length ≤ fuel' → specSplitAux fuel acc l = specSplitAux fuel' acc l := by
  intro n
  induction n with
  | zero =>
    intro fuel fuel' acc l hn _ _
    rw [List.length_eq_zero.mp (Nat.le_zero.mp hn)]
    cases fuel <;> cases fuel' <;> rfl
  | succ n ih =>
    intro fuel fuel' acc l hn hf hf'
    cases l with
    | nil => cases fuel <;> cases fuel' <;> rfl
    | cons c cs =>
      simp only [List.length_cons] at hn hf hf'
      cases fuel with
      | zero => omega
      | succ f =>
        cases fuel' with
        | zero => omega
        | succ f' =>
          have hrest : (cs.dropWhile pyIsSpace).length ≤ cs.length :=
            (List.dropWhile_sublist pyIsSpace).length_le
          simp only [specSplitAux]
          by_cases hc : pyIsSpace c
          · simp only [hc, if_true]
            by_cases hcount :
                2 ≤ ((c :: cs.takeWhile pyIsSpace).count '\n')
            · simp only [hcount, if_true]
              rw [ih f f' [] (cs.dropWhile pyIsSpace) (by omega) (by omega)
                (by omega)]
            · simp only [hcount, if_false]
              rw [ih f f' _ (cs.dropWhile pyIsSpace) (by omega) (by omega)
                (by omega)]
          · simp only [hc, Bool.false_eq_true, if_false]
            exact ih f f' (c :: acc) cs (by omega) (by omega) (by omega)

/-- Accumulator factoring for the spec-level splitter. -/
theorem specSplitAux_acc :
    ∀ (fuel : Nat) (l acc), l.length ≤ fuel →
      specSplitAux fuel acc l =
        prepFirst acc.reverse (specSplitAux fuel [] l) := by
  intro fuel
  induction fuel with
  | zero =>
    intro l acc hl
    rw [List.length_eq_zero.mp (Nat.le_zero.mp hl)]
    simp [specSplitAux, prepFirst]
  | succ f ih =>
    intro l acc hl
    cases l with
    | nil => simp [specSplitAux, prepFirst]
    | cons c cs =>
      simp only [List.length_cons] at hl
      have hrest : (cs.dropWhile pyIsSpace).length ≤ cs.length :=
        (List.dropWhile_sublist pyIsSpace).length_le
      simp only [specSplitAux]
      by_cases hc : pyIsSpace c
      · simp only [hc, if_true]
        by_cases hcount : 2 ≤ ((c :: cs.takeWhile pyIsSpace).count '\n')
        · simp [hcount, prepFirst]
        · simp only [hcount, if_false, List.append_nil]
          rw [ih (cs.dropWhile pyIsSpace)
              ((c :: cs.takeWhile pyIsSpace).reverse ++ acc) (by omega),
            ih (cs.dropWhile pyIsSpace)
              ((c :: cs.takeWhile pyIsSpace).reverse) (by omega),
            List.reverse_append, List.reverse_reverse, prepFirst_append]
      · simp only [hc, Bool.false_eq_true, if_false]
        rw [ih cs (c :: acc) (by omega), ih cs [c] (by omega),
          List.reverse_cons, prepFirst_append]
        rfl

/-- A whitespace run with no newline, followed by non-whitespace (or the end),
contains no match for the separator's `\s*\n+` tail. -/
theorem afterLastNL_none :
    ∀ {w l : List Char}, (∀ c ∈ w, pyIsSpace c = true ∧ c ≠ '\n') →
      HeadNotWS l → afterLastNL (w ++ l) = none := by
  intro w
  induction w with
  | nil =>
    intro l _ hl
    cases l with
    | nil => rfl
    | cons c cs =>
      have hc : pyIsSpace c = false := hl c rfl
      have hcn : ¬(c = '\n') := by
        intro h; subst h; simp [pyIsSpace] at hc
      simp [afterLastNL, hcn, hc]
  | cons d w' ih =>
    intro l hw hl
    obtain ⟨hd, hdn⟩ := hw d (by simp)
    simp only [List.cons_append, afterLastNL, if_neg hdn, hd, if_true]
    exact ih (fun c hc => hw c (by simp [hc])) hl

/-- A whitespace run containing a newline, followed by non-whitespace (or the
end): the `\s*\n+` tail matches, consuming through the run's last newline and
leaving a shorter newline-free whitespace residue before `l`. -/
theorem afterLastNL_cons_nl (cs : List Char) :
    afterLastNL ('\n' :: cs) =
      match afterLastNL cs with
      | some r => some r
      | none => some cs := rfl

theorem afterLastNL_cons_ws {c : Char} (h1 : ¬(c = '\n'))
    (h2 : pyIsSpace c = true) (cs : List Char) :
    afterLastNL (c :: cs) = afterLastNL cs := by
  simp [afterLastNL, h1, h2]

/-- A whitespace run containing a newline, followed by non-whitespace (or the
end): the `\s*\n+` tail matches, consuming through the run's last newline and
leaving a shorter newline-free whitespace residue before `l`. -/
theorem afterLastNL_some :
    ∀ {w l : List Char}, (∀ c ∈ w, pyIsSpace c = true) →
      1 ≤ w.count '\n' → HeadNotWS l →
      ∃ post, afterLastNL (w ++ l) = some (post ++ l) ∧
        (∀ c ∈ post, pyIsSpace c = true ∧ c ≠ '\n') ∧
        post.length < w.length := by
  intro w
  induction w with
  | nil => intro l _ hn _; simp at hn
  | cons d w' ih =>
    intro l hw hn hl
    by_cases hd : d = '\n'
    · subst hd
      rw [List.cons_append, afterLastNL_cons_nl]
      by_cases hn' : 1 ≤ w'.count '\n'
      · obtain ⟨post, hp, hpost, hlen⟩ :=
          ih (fun c hc => hw c (by simp [hc])) hn' hl
        rw [hp]
        exact ⟨post, rfl, hpost, by simp only [List.length_cons]; omega⟩
      · have hz : w'.count '\n' = 0 := by omega
        have hmem : ∀ c ∈ w', pyIsSpace c = true ∧ c ≠ '\n' := by
          intro c hc
          refine ⟨hw c (by simp [hc]), ?_⟩
          intro h; subst h
          exact absurd (List.count_eq_zero.mp hz) (by simp [hc])
        rw [afterLastNL_none hmem hl]
        exact ⟨w', rfl, hmem, by simp⟩
    · have hdw : pyIsSpace d = true := hw d (by simp)
      have hn' : 1 ≤ w'.count '\n' := by
        rwa [List.count_cons_of_ne (Ne.symm hd)] at hn
      obtain ⟨post, hp, hpost, hlen⟩ :=
        ih (fun c hc => hw c (by simp [hc])) hn' hl
      refine ⟨post, ?_, hpost, by simp only [List.length_cons]; omega⟩
      rw [List.cons_append, afterLastNL_cons_ws hd hdw]
      exact hp

/-- The splitter passes over a newline-free prefix, moving it into the
accumulator. -/
theorem splitBlocksAux_skip_pre :
    ∀ (pre : List Char) (l acc : List Char) (fuel fuel' : Nat),
      (∀ c ∈ pre, ¬(c = '\n')) → pre.length + l.length ≤ fuel →
      l.length ≤ fuel' →
      splitBlocksAux fuel acc (pre ++ l) =
        splitBlocksAux fuel' (pre.reverse ++ acc) l := by
  intro pre
  induction pre with
  | nil =>
    intro l acc fuel fuel' _ hf hf'
    simpa using splitBlocksAux_fuel l.length fuel fuel' acc l le_rfl
      (by simpa using hf) hf'
  | cons d pre' ih =>
    intro l acc fuel fuel' hpre hf hf'
    cases fuel with
    | zero => simp at hf
    | succ f =>
      have hm : matchSep (d :: (pre' ++ l)) = none := by
        simp [matchSep, hpre d (by simp)]
      simp only [List.cons_append, splitBlocksAux, List.append_eq, hm]
      rw [ih l (d :: acc) f fuel' (fun c hc => hpre c (by simp [hc]))
        (by simp at hf; omega) hf']
      simp

/-- The splitter passes over a whitespace run containing at most one newline:
such a run is not a paragraph boundary. -/
theorem splitBlocksAux_skip_run :
    ∀ (run : List Char) (l acc : List Char) (fuel fuel' : Nat),
      (∀ c ∈ run, pyIsSpace c = true) → run.count '\n' ≤ 1 → HeadNotWS l →
      run.length + l.length ≤ fuel → l.length ≤ fuel' →
      splitBlocksAux fuel acc (run ++ l) =
        splitBlocksAux fuel' (run.reverse ++ acc) l := by
  intro run
  induction run with
  | nil =>
    intro l acc fuel fuel' _ _ _ hf hf'
    simpa using splitBlocksAux_fuel l.length fuel fuel' acc l le_rfl
      (by simpa using hf) hf'
  | cons d run' ih =>
    intro l acc fuel fuel' hws hcount hl hf hf'
    cases fuel with
    | zero => simp at hf
    | succ f =>
      by_cases hd : d = '\n'
      · subst hd
        have hz : run'.count '\n' = 0 := by
          rw [List.count_cons_self] at hcount; omega
        have hmem : ∀ c ∈ run', pyIsSpace c = true ∧ c ≠ '\n' := by
          intro c hc
          refine ⟨hws c (by simp [hc]), ?_⟩
          intro h; subst h
          exact absurd (List.count_eq_zero.mp hz) (by simp [hc])
        have hm : matchSep ('\n' :: (run' ++ l)) = none := by
          simp only [matchSep, if_pos rfl]
          exact afterLastNL_none hmem hl
        simp only [List.cons_append, splitBlocksAux, List.append_eq, hm]
        rw [ih l ('\n' :: acc) f fuel' (fun c hc => hws c (by simp [hc]))
          (by omega) hl (by simp at hf; omega) hf']
        simp
      · have hm : matchSep (d :: (run' ++ l)) = none := by
          simp [matchSep, hd]
        have hcount' : run'.count '\n' ≤ 1 := by
          rwa [List.count_cons_of_ne (Ne.symm hd)] at hcount
        simp only [List.cons_append, splitBlocksAux, List.append_eq, hm]
        rw [ih l (d :: acc) f fuel' (fun c hc => hws c (by simp [hc]))
          hcount' hl (by simp at hf; omega) hf']
        simp

/-- A whitespace run containing at least two newlines is a paragraph
boundary: the splitter closes the current block (absorbing the run's
newline-free prefix) and the run's residue after its last newline pads the
front of the following block. -/
theorem splitBlocksAux_split_run :
    ∀ (run : List Char) (l acc : List Char) (fuel fuel' : Nat),
      (∀ c ∈ run, pyIsSpace c = true) → 2 ≤ run.count '\n' → HeadNotWS l →
      run.length + l.length ≤ fuel → l.length ≤ fuel' →
      ∃ pre post, (∀ c ∈ pre, pyIsSpace c = true) ∧
        (∀ c ∈ post, pyIsSpace c = true) ∧
        splitBlocksAux fuel acc (run ++ l) =
          (acc.reverse ++ pre) :: prepFirst post (splitBlocksAux fuel' [] l) := by
  intro run
  induction run with
  | nil => intro l acc fuel fuel' _ hn _ _ _; simp at hn
  | cons d run' ih =>
    intro l acc fuel fuel' hws hcount hl hf hf'
    cases fuel with
    | zero => simp at hf
    | succ f =>
      by_cases hd : d = '\n'
      · subst hd
        have hn' : 1 ≤ run'.count '\n' := by
          rw [List.count_cons_self] at hcount; omega
        obtain ⟨post, hp, hpost, hplen⟩ :=
          afterLastNL_some (fun c hc => hws c (by simp [hc])) hn' hl
        have hm : matchSep ('\n' :: (run' ++ l)) = some (post ++ l) := by
          simp only [matchSep, if_pos rfl]; exact hp
        simp only [List.cons_append, splitBlocksAux, List.append_eq, hm]
        have hrest : splitBlocksAux f [] (post ++ l) =
            splitBlocksAux fuel' (post.reverse ++ []) l := by
          refine splitBlocksAux_skip_run post l [] f fuel'
            (fun c hc => (hpost c hc).1) ?_ hl ?_ hf'
          · have : post.count '\n' = 0 :=
              List.count_eq_zero.mpr fun hmem => (hpost '\n' hmem).2 rfl
            omega
          · simp only [List.length_cons] at hf; omega
        rw [hrest, List.append_nil,
          splitBlocksAux_acc fuel' l post.reverse hf',
          List.reverse_reverse]
        exact ⟨[], post, by simp, fun c hc => (hpost c hc).1, by simp⟩
      · have hm : matchSep (d :: (run' ++ l)) = none := by
          simp [matchSep, hd]
        have hcount' : 2 ≤ run'.count '\n' := by
          rwa [List.count_cons_of_ne (Ne.symm hd)] at hcount
        simp only [List.cons_append, splitBlocksAux, List.append_eq, hm]
        obtain ⟨pre, post, hpre, hpost, heq⟩ :=
          ih l (d :: acc) f fuel' (fun c hc => hws c (by simp [hc])) hcount'
            hl (by simp only [List.length_cons] at hf; omega) hf'
        refine ⟨d :: pre, post, ?_, hpost, ?_⟩
        · intro c hc
          rcases List.mem_cons.mp hc with rfl | hc
          · exact hws c (by simp)
          · exact hpre c hc
        · rw [heq, List.reverse_cons, List.append_assoc]
          rfl

/-- The regex splitter and the spec-level splitter produce pad-equivalent
block lists. -/
theorem blocksRel_main :
    ∀ (fuel : Nat) (t : List Char), t.length ≤ fuel →
      BlocksRel (splitBlocksAux fuel [] t) (specSplitAux fuel [] t) := by
  intro fuel
  induction fuel with
  | zero =>
    intro t ht
    rw [List.length_eq_zero.mp (Nat.le_zero.mp ht)]
    exact ⟨[], [], [], [], rfl, rfl, ⟨[], by simp, by simp⟩, .nil⟩
  | succ f ih =>
    intro t ht
    cases t with
    | nil => exact ⟨[], [], [], [], rfl, rfl, ⟨[], by simp, by simp⟩, .nil⟩
    | cons c cs =>
      simp only [List.length_cons] at ht
      by_cases hc : pyIsSpace c
      · have hsplit : (c :: cs.takeWhile pyIsSpace) ++ cs.dropWhile pyIsSpace
            = c :: cs := by
          simp [List.takeWhile_append_dropWhile]
        have hrun : ∀ x ∈ c :: cs.takeWhile pyIsSpace, pyIsSpace x = true := by
          intro x hx
          rcases List.mem_cons.mp hx with rfl | hx
          · exact hc
          · exact List.mem_takeWhile_imp hx
        have hrest : HeadNotWS (cs.dropWhile pyIsSpace) :=
          headNotWS_dropWhile cs
        have hlen : (c :: cs.takeWhile pyIsSpace).length +
            (cs.dropWhile pyIsSpace).length = cs.length + 1 := by
          have h := congrArg List.length hsplit
          simp only [List.length_append, List.length_cons] at h
          simp only [List.length_cons]
          omega
        have hrl : (cs.dropWhile pyIsSpace).length ≤ cs.length :=
          (List.dropWhile_sublist pyIsSpace).length_le
        by_cases hcount : 2 ≤ ((c :: cs.takeWhile pyIsSpace).count '\n')
        · -- separator run: both splitters close the current block here
          obtain ⟨pre, post, hpre, hpost, heq⟩ :=
            splitBlocksAux_split_run (c :: cs.takeWhile pyIsSpace)
              (cs.dropWhile pyIsSpace) [] (f + 1) f hrun hcount hrest
              (by omega) (by omega)
          have hcode : splitBlocksAux (f + 1) [] (c :: cs) =
              ([].reverse ++ pre) ::
                prepFirst post (splitBlocksAux f [] (cs.dropWhile pyIsSpace)) := by
            rw [← hsplit]; exact heq
          have hspec : specSplitAux (f + 1) [] (c :: cs) =
              [] :: specSplitAux f [] (cs.dropWhile pyIsSpace) := by
            simp [specSplitAux, hc, hcount]
          rw [hcode, hspec]
          obtain ⟨b, bs, s, ss, hB, hS, ⟨w, hw, hbsw⟩, hfa⟩ :=
            ih (cs.dropWhile pyIsSpace) (by omega)
          rw [hB, hS]
          refine ⟨[].reverse ++ pre, (post ++ b) :: bs, [], s :: ss, by
            simp [prepFirst], rfl, ⟨pre, hpre, by simp⟩, ?_⟩
          refine List.Forall₂.cons ⟨post, w, hpost, hw, ?_⟩ hfa
          rw [hbsw, List.append_assoc]
        · -- non-separator whitespace run: goes into the current block
          have hcount' : (c :: cs.takeWhile pyIsSpace).count '\n' ≤ 1 := by
            omega
          have hcode : splitBlocksAux (f + 1) [] (c :: cs) =
              prepFirst (c :: cs.takeWhile pyIsSpace)
                (splitBlocksAux f [] (cs.dropWhile pyIsSpace)) := by
            rw [← hsplit]
            rw [splitBlocksAux_skip_run (c :: cs.takeWhile pyIsSpace)
              (cs.dropWhile pyIsSpace) [] (f + 1) f hrun hcount' hrest
              (by omega) (by omega)]
            rw [List.append_nil,
              splitBlocksAux_acc f (cs.dropWhile pyIsSpace) _ (by omega),
              List.reverse_reverse]
          have hspec : specSplitAux (f + 1) [] (c :: cs) =
              prepFirst (c :: cs.takeWhile pyIsSpace)
                (specSplitAux f [] (cs.dropWhile pyIsSpace)) := by
            simp only [specSplitAux, hc, if_true, hcount, if_false,
              List.append_nil]
            rw [specSplitAux_acc f (cs.dropWhile pyIsSpace) _ (by omega),
              List.reverse_reverse]
          rw [hcode, hspec]
          obtain ⟨b, bs, s, ss, hB, hS, ⟨w, hw, hbsw⟩, hfa⟩ :=
            ih (cs.dropWhile pyIsSpace) (by omega)
          rw [hB, hS]
          exact ⟨(c :: cs.takeWhile pyIsSpace) ++ b, bs,
            (c :: cs.takeWhile pyIsSpace) ++ s, ss, by simp [prepFirst],
            by simp [prepFirst], ⟨w, hw, by rw [hbsw, List.append_assoc]⟩, hfa⟩
      · -- non-whitespace character: goes into the current block
        have hcn : ¬(c = '\n') := by
          intro h; subst h; simp [pyIsSpace] at hc
        have hm : matchSep (c :: cs) = none := by simp [matchSep, hcn]
        have hcode : splitBlocksAux (f + 1) [] (c :: cs) =
            prepFirst [c] (splitBlocksAux f [] cs) := by
          simp only [splitBlocksAux, hm]
          rw [splitBlocksAux_acc f cs [c] (by omega)]
          rfl
        have hspec : specSplitAux (f + 1) [] (c :: cs) =
            prepFirst [c] (specSplitAux f [] cs) := by
          simp only [specSplitAux, hc, Bool.false_eq_true, if_false]
          rw [specSplitAux_acc f cs [c] (by omega)]
          rfl
        rw [hcode, hspec]
        obtain ⟨b, bs, s, ss, hB, hS, ⟨w, hw, hbsw⟩, hfa⟩ := ih cs (by omega)
        rw [hB, hS]
        exact ⟨c :: b, bs, c :: s, ss, by simp [prepFirst],
          by simp [prepFirst], ⟨w, hw, by rw [hbsw]; rfl⟩, hfa⟩

theorem padBoth_norm {b s : List Char} (h : PadBoth b s) :
    normalizeWS b = normalizeWS s := by
  obtain ⟨w₁, w₂, h₁, h₂, rfl⟩ := h
  exact normalizeWS_pad h₁ h₂ s

theorem forall₂_padBoth_map {bs ss : List (List Char)}
    (h : List.Forall₂ PadBoth bs ss) :
    bs.map normalizeWS = ss.map normalizeWS := by
  induction h with
  | nil => rfl
  | cons hab _ ih => simp [padBoth_norm hab, ih]

/-- After whitespace normalization, the code splitter's block list and the
spec splitter's block list coincide. -/
theorem splitBlocks_map_norm (t : List Char) :
    (splitBlocks t).map normalizeWS = (specBlocks t).map normalizeWS := by
  obtain ⟨b, bs, s, ss, hB, hS, ⟨w, hw, hbsw⟩, hfa⟩ :=
    blocksRel_main t.length t le_rfl
  unfold splitBlocks specBlocks
  rw [hB, hS]
  simp only [List.map_cons]
  rw [forall₂_padBoth_map hfa, hbsw]
  have : normalizeWS (s ++ w) = normalizeWS s := by
    have := @normalizeWS_pad [] w (by simp) hw s
    simpa using this
  rw [this]

theorem pyEnumerate_map_fst {α : Type} :
    ∀ (s : Nat) (xs : List α),
      (pyEnumerate s xs).map Prod.fst = List.range' s xs.length := by
  intro s xs
  induction xs generalizing s with
  | nil => rfl
  | cons a as ih =>
    simp only [pyEnumerate, List.map_cons, List.length_cons,
      List.range'_succ]
    rw [ih]

theorem pyEnumerate_map_snd {α : Type} :
    ∀ (s : Nat) (xs : List α), (pyEnumerate s xs).map Prod.snd = xs := by
  intro s xs
  induction xs generalizing s with
  | nil => rfl
  | cons a as ih => simp only [pyEnumerate, List.map_cons, ih]

/-! ### The claims -/

/-- C1: For every input string, the segmenter splits the input into blocks
exactly at blank-line boundaries: a separator is any run of whitespace
containing at least two newline characters, and a single newline inside a
block never causes a split; text on either side of a single newline stays in
the same block.  Formalized as: the source segmenter agrees with the
spec-level segmenter `spec_segment`, whose splitter removes exactly the
maximal whitespace runs containing at least two newlines and keeps whitespace
runs with at most one newline (in particular single newlines) inside the
current block. -/
theorem C1_blank_line_boundaries (text : List Char) :
    parse_into_paragraphs text = spec_segment text := by
  unfold parse_into_paragraphs spec_segment
  rw [splitBlocks_map_norm]

/-- C2: every paragraph in the segmenter's output has length > 20 (so every
normalized block of length ≤ 20 is discarded), no leading or trailing
whitespace, no two adjacent whitespace characters, and all its whitespace
characters are single spaces. -/
theorem C2_normalized_output_shape (text p : List Char)
    (hp : p ∈ parse_into_paragraphs text) :
    20 < p.length ∧
    (∀ c, p.head? = some c → pyIsSpace c = false) ∧
    (∀ c, p.getLast? = some c → pyIsSpace c = false) ∧
    p.Chain' (fun a b => ¬(pyIsSpace a = true ∧ pyIsSpace b = true)) ∧
    (∀ c ∈ p, pyIsSpace c = true → c = ' ') := by
  unfold parse_into_paragraphs at hp
  obtain ⟨hmem, hlen⟩ := List.mem_filter.mp hp
  obtain ⟨b, _, rfl⟩ := List.mem_map.mp hmem
  obtain ⟨h1, h2, h3, h4⟩ :=
    @joinSp_shape (pyTokens b) fun u hu => pyTokens_mem hu
  exact ⟨by simpa using hlen, h1, h2, h3, h4⟩

/-- C2 witness: a concrete input and output paragraph satisfying the shape
properties. -/
theorem C2_normalized_output_shape_witness :
    ("abcdefghijklmnopqrstuvwxyz".data ∈
      parse_into_paragraphs "abcdefghijklmnopqrstuvwxyz".data) ∧
    (20 < "abcdefghijklmnopqrstuvwxyz".data.length ∧
    (∀ c, "abcdefghijklmnopqrstuvwxyz".data.head? = some c →
      pyIsSpace c = false) ∧
    (∀ c, "abcdefghijklmnopqrstuvwxyz".data.getLast? = some c →
      pyIsSpace c = false) ∧
    "abcdefghijklmnopqrstuvwxyz".data.Chain'
      (fun a b => ¬(pyIsSpace a = true ∧ pyIsSpace b = true)) ∧
    (∀ c ∈ "abcdefghijklmnopqrstuvwxyz".data, pyIsSpace c = true → c = ' ')) :=
  ⟨by decide, C2_normalized_output_shape "abcdefghijklmnopqrstuvwxyz".data
    "abcdefghijklmnopqrstuvwxyz".data (by decide)⟩

/-- C3: filtering never reorders — the segmenter's output is a sublist of the
normalized block sequence in block order — and the positions assigned at
persistence time (`enumerate(paragraphs, start=1)` in the upload view) are
exactly 1..N: the newly created paragraph rows carry `paragraph_id`s
`1, 2, …, N` (contiguous from 1, strictly increasing, no gaps) and their texts
are the segmenter's output in order. -/
theorem C3_order_and_positions (text : List Char) (db : DBState) :
    List.Sublist (parse_into_paragraphs text)
      ((splitBlocks text).map normalizeWS) ∧
    ((upload none none (.ok text) db).1.paras.drop db.paras.length).map
        ParaRec.paragraph_id =
      List.range' 1 (parse_into_paragraphs text).length ∧
    ((upload none none (.ok text) db).1.paras.drop db.paras.length).map
        ParaRec.text =
      parse_into_paragraphs text := by
  refine ⟨List.filter_sublist _, ?_, ?_⟩ <;>
  · show (((db.paras ++ _).drop db.paras.length).map _) = _
    rw [List.drop_left, List.map_map]
    first
    | · show ((pyEnumerate 1 (parse_into_paragraphs text)).map
          (fun ip => ip.1)) = _
        exact pyEnumerate_map_fst 1 _
    | · show ((pyEnumerate 1 (parse_into_paragraphs text)).map
          (fun ip => ip.2)) = _
        exact pyEnumerate_map_snd 1 _

/-- C4: the segmenter is total and deterministic over all string inputs, and
segmenting the empty string returns the empty sequence (a valid, non-error
outcome). -/
theorem C4_totality :
    parse_into_paragraphs [] = [] ∧
    ∀ text : List Char, ∃! out, parse_into_paragraphs text = out := by
  refine ⟨by decide, ?_⟩
  intro text
  exact ⟨parse_into_paragraphs text, rfl, fun y hy => hy.symm⟩

/-- C9: whitespace normalization (tokenize on whitespace, rejoin with single
spaces) is idempotent: for every string `s`,
`normalize(normalize(s)) = normalize(s)`; in particular normalizing an
already-normalized block returns it unchanged. -/
theorem C9_normalization_idempotent (s : List Char) :
    normalizeWS (normalizeWS s) = normalizeWS s :=
  normalizeWS_idem s

/-- C5: when the caller supplies no title and segmentation yields a non-empty
paragraph list, the derived title is the first paragraph's first 50
characters, with the `'...'` marker appended iff the first paragraph is
longer than 50 characters; a 50-character first paragraph yields itself
verbatim, a 73-character one yields its first 50 characters plus the
marker. -/
theorem C5_derived_title (author : Option (List Char))
    (rawText : List Char) (db : DBState) (p : List Char)
    (ps : List (List Char))
    (hps : parse_into_paragraphs rawText = p :: ps)
    (hauth : ((author.map pyStrip).getD []).length ≤ 255) :
    (upload none author (.ok rawText) db).2.titleOf =
      some (p.take 50 ++ (if 50 < p.length then "...".data else [])) ∧
    (p.length = 50 →
      (upload none author (.ok rawText) db).2.titleOf = some p) ∧
    (p.length = 73 →
      (upload none author (.ok rawText) db).2.titleOf =
        some (p.take 50 ++ "...".data)) := by
  have hmain : (upload none author (.ok rawText) db).2.titleOf =
      some (p.take 50 ++ (if 50 < p.length then "...".data else [])) := by
    unfold upload
    rw [if_neg (by simp only [not_or]; constructor <;> [simp; omega])]
    simp only [Option.map_none', Option.getD_none]
    unfold derive_title
    rw [if_pos (Or.inr rfl), hps]
    rfl
  refine ⟨hmain, ?_, ?_⟩
  · intro h50
    rw [hmain, if_neg (by omega), List.take_of_length_le (by omega),
      List.append_nil]
  · intro h73
    rw [hmain, if_pos (by omega)]

/-- C5 witness: a concrete titleless upload whose single 26-character
paragraph becomes the title verbatim (no truncation at ≤ 50). -/
theorem C5_derived_title_witness :
    (parse_into_paragraphs "abcdefghijklmnopqrstuvwxyz".data =
      ["abcdefghijklmnopqrstuvwxyz".data]) ∧
    ((((none : Option (List Char))).map pyStrip).getD []).length ≤ 255 ∧
    ((upload none none (.ok "abcdefghijklmnopqrstuvwxyz".data)
        ⟨[], []⟩).2.titleOf =
      some ("abcdefghijklmnopqrstuvwxyz".data.take 50 ++
        (if 50 < "abcdefghijklmnopqrstuvwxyz".data.length then "...".data
          else []))) :=
  ⟨by decide, by decide,
    (C5_derived_title none "abcdefghijklmnopqrstuvwxyz".data ⟨[], []⟩
      "abcdefghijklmnopqrstuvwxyz".data [] (by decide) (by decide)).1⟩

/-- C6 counterexample: the caller-supplied title `"Untitled Post"` is
non-blank, yet the upload does not keep it — the view's sentinel comparison
`title == 'Untitled Post'` reruns the derivation policy, which replaces it by
the first paragraph's prefix. -/
theorem C6_counterexample :
    pyStrip untitledPost = untitledPost ∧
    untitledPost ≠ [] ∧
    (upload (some untitledPost) none
        (.ok "This paragraph easily exceeds twenty characters.".data)
        ⟨[], []⟩).2.titleOf ≠ some untitledPost := by decide

/-- C6 (amended): for every upload where the caller supplies a title that is
non-blank after the serializer's whitespace trimming **and** whose trimmed
value differs from the literal `"Untitled Post"`, the derivation policy does
not run and the persisted post title is the supplied title as trimmed by the
serializer (equal to the supplied title verbatim when it has no
leading/trailing whitespace), regardless of the paragraph list. -/
theorem C6_amended_supplied_title_precedence (t : List Char)
    (author : Option (List Char)) (rawText : List Char) (db : DBState)
    (hblank : pyStrip t ≠ [])
    (hlit : pyStrip t ≠ untitledPost)
    (hlen : (pyStrip t).length ≤ 255)
    (hauth : ((author.map pyStrip).getD []).length ≤ 255) :
    (upload (some t) author (.ok rawText) db).2.titleOf = some (pyStrip t) ∧
    (upload (some t) author (.ok rawText) db).1.posts.map PostRec.title =
      db.posts.map PostRec.title ++ [pyStrip t] := by
  unfold upload
  simp only [Option.map_some', Option.getD_some]
  rw [if_neg (by simp only [not_or]; exact ⟨by omega, by omega⟩)]
  unfold derive_title
  rw [if_neg (not_or_intro hblank hlit)]
  exact ⟨rfl, by simp⟩

/-- C6 amended witness: a concrete non-blank, non-sentinel title is kept
verbatim. -/
theorem C6_amended_supplied_title_precedence_witness :
    pyStrip "A Real Title".data ≠ [] ∧
    pyStrip "A Real Title".data ≠ untitledPost ∧
    (pyStrip "A Real Title".data).length ≤ 255 ∧
    ((((none : Option (List Char))).map pyStrip).getD []).length ≤ 255 ∧
    ((upload (some "A Real Title".data) none
        (.ok "This paragraph easily exceeds twenty characters.".data)
        ⟨[], []⟩).2.titleOf = some (pyStrip "A Real Title".data)) :=
  ⟨by decide, by decide, by decide, by decide,
    (C6_amended_supplied_title_precedence "A Real Title".data none
      "This paragraph easily exceeds twenty characters.".data ⟨[], []⟩
      (by decide) (by decide) (by decide) (by decide)).1⟩

/-- C7: when segmentation returns the empty sequence and the caller supplied
no non-blank title, the post title is the literal `"Untitled Post"`, the
outcome is the created (201) response rather than an error, and a post with
zero paragraphs is still persisted. -/
theorem C7_empty_segmentation_fallback (title author : Option (List Char))
    (rawText : List Char) (db : DBState)
    (hseg : parse_into_paragraphs rawText = [])
    (hblank : ∀ t, title = some t → pyStrip t = [])
    (hauth : ((author.map pyStrip).getD []).length ≤ 255) :
    (upload title author (.ok rawText) db).2 =
      .created untitledPost ((author.map pyStrip).getD anonymousAuthor) [] ∧
    (upload title author (.ok rawText) db).1.posts = db.posts ++
      [⟨untitledPost, (author.map pyStrip).getD anonymousAuthor⟩] ∧
    (upload title author (.ok rawText) db).1.paras = db.paras := by
  cases title with
  | none =>
    unfold upload
    simp only [Option.map_none', Option.getD_none]
    rw [if_neg (by
      simp only [not_or, List.length_nil]
      exact ⟨by omega, by omega⟩)]
    unfold derive_title
    rw [if_pos (Or.inr rfl), hseg]
    exact ⟨rfl, rfl, by simp [hseg, pyEnumerate]⟩
  | some t =>
    have ht : pyStrip t = [] := hblank t rfl
    unfold upload
    simp only [Option.map_some', Option.getD_some, ht]
    rw [if_neg (by simp only [not_or, List.length_nil]; exact ⟨by omega, by omega⟩)]
    unfold derive_title
    rw [if_pos (Or.inl rfl), hseg]
    exact ⟨rfl, rfl, by simp [hseg, pyEnumerate]⟩

/-- C7 witness: a concrete upload whose raw text yields no paragraph (all
blocks are ≤ 20 characters after normalization) and whose title is blank. -/
theorem C7_empty_segmentation_fallback_witness :
    parse_into_paragraphs "Hi\n\nshort".data = [] ∧
    (∀ t, (some "   ".data : Option (List Char)) = some t → pyStrip t = []) ∧
    ((((none : Option (List Char))).map pyStrip).getD []).length ≤ 255 ∧
    ((upload (some "   ".data) none (.ok "Hi\n\nshort".data) ⟨[], []⟩).2 =
      .created untitledPost
        ((((none : Option (List Char))).map pyStrip).getD anonymousAuthor)
        []) :=
  ⟨by decide, by decide, by decide,
    (C7_empty_segmentation_fallback (some "   ".data) none
      "Hi\n\nshort".data ⟨[], []⟩ (by decide) (by decide) (by decide)).1⟩

/-- C8: when the text extractor fails, the whole upload fails with a single
pipeline error (HTTP 500, message prefixed `OCR processing failed: `) and the
store is unchanged: no post and no paragraphs are created. -/
theorem C8_extraction_error_no_writes (title author : Option (List Char))
    (e : List Char) (db : DBState)
    (htitle : ((title.map pyStrip).getD []).length ≤ 255)
    (hauth : ((author.map pyStrip).getD []).length ≤ 255) :
    upload title author (.error e) db =
      (db, .error ("OCR processing failed: ".data ++ e)) := by
  unfold upload
  rw [if_neg (by simp only [not_or]; exact ⟨by omega, by omega⟩)]

/-- C8 witness: a concrete failing extraction leaves a concrete store
untouched. -/
theorem C8_extraction_error_no_writes_witness :
    ((((none : Option (List Char))).map pyStrip).getD []).length ≤ 255 ∧
    (upload none none (.error "Gemini OCR failed: boom".data)
        ⟨[⟨"t".data, "a".data⟩], []⟩ =
      (⟨[⟨"t".data, "a".data⟩], []⟩,
        .error ("OCR processing failed: ".data ++
          "Gemini OCR failed: boom".data))) :=
  ⟨by decide,
    C8_extraction_error_no_writes none none "Gemini OCR failed: boom".data
      ⟨[⟨"t".data, "a".data⟩], []⟩ (by decide) (by decide)⟩

/-- C10: whenever the derivation policy truncates (the first paragraph is
longer than 50 characters) the derived title is exactly the first 50
characters followed by the three-character marker `"..."`, hence has length
exactly 53; and every title the policy derives has length at most 53. -/
theorem derive_title_cons (t p : List Char) (ps : List (List Char))
    (ht : t = [] ∨ t = untitledPost) :
    derive_title t (p :: ps) =
      p.take 50 ++ (if 50 < p.length then "...".data else []) := by
  unfold derive_title
  rw [if_pos ht]

theorem derive_title_nil (t : List Char) (ht : t = [] ∨ t = untitledPost) :
    derive_title t [] = untitledPost := by
  unfold derive_title
  rw [if_pos ht]

theorem C10_truncation_length :
    (∀ (t p : List Char) (ps : List (List Char)),
      (t = [] ∨ t = untitledPost) → 50 < p.length →
      derive_title t (p :: ps) = p.take 50 ++ "...".data ∧
      (derive_title t (p :: ps)).length = 53) ∧
    (∀ (t : List Char) (ps : List (List Char)),
      (t = [] ∨ t = untitledPost) → (derive_title t ps).length ≤ 53) := by
  have h3 : ("...".data).length = 3 := by decide
  constructor
  · intro t p ps ht h50
    rw [derive_title_cons t p ps ht, if_pos h50]
    refine ⟨rfl, ?_⟩
    simp only [List.length_append, List.length_take, h3]
    omega
  · intro t ps ht
    cases ps with
    | nil => rw [derive_title_nil t ht]; decide
    | cons p rest =>
      rw [derive_title_cons t p rest ht]
      by_cases h : 50 < p.length
      · rw [if_pos h]
        simp only [List.length_append, List.length_take, h3]
        omega
      · rw [if_neg h]
        simp only [List.length_append, List.length_take,
          List.length_nil]
        omega

/-- C10 witness: a concrete 73-character first paragraph is truncated to
exactly 53 characters, and a concrete empty paragraph list derives the
13-character fallback. -/
theorem C10_truncation_length_witness :
    (([] : List Char) = [] ∨ ([] : List Char) = untitledPost) ∧
    50 <
      "aaaaaaaaaaaaaaaaaaaaaaaaaaaaaaaaaaaaaaaaaaaaaaaaaaaaaaaaaaaaaaaaaaaaaaa".data.length ∧
    (derive_title []
        ["aaaaaaaaaaaaaaaaaaaaaaaaaaaaaaaaaaaaaaaaaaaaaaaaaaaaaaaaaaaaaaaaaaaaaaa".data]).length
      = 53 ∧
    (derive_title [] []).length ≤ 53 :=
  ⟨Or.inl rfl, by decide,
    (C10_truncation_length.1 []
      "aaaaaaaaaaaaaaaaaaaaaaaaaaaaaaaaaaaaaaaaaaaaaaaaaaaaaaaaaaaaaaaaaaaaaaa".data
      [] (Or.inl rfl) (by decide)).2,
    C10_truncation_length.2 [] [] (Or.inl rfl)⟩
